import Mathlib

/-
  Verification of the yedra request-validation and routing core.

  The definitions below are a shallow embedding of the TypeScript sources:
  * src/validation/error.ts        (Issue, ValidationError)
  * src/validation/string.ts       (StringSchema.parse)
  * src/validation/number.ts       (NumberSchema.parse)
  * src/validation/enum.ts         (EnumSchema.parse)
  * src/validation/union.ts        (UnionSchema.parse)
  * src/validation/intersection.ts (IntersectionSchema.parse)
  * src/validation/object.ts       (ObjectSchema.parse)
  * src/validation/modifiable.ts   (OptionalSchema.parse)
  * src/routing/path.ts            (Path constructor, Path.match, normalizeParam)
  * src/routing/app.ts             (BuiltApp.matchRestRoute)
  * src/util/counter.ts            (Counter)

  JavaScript runtime values are modelled by `JsValue`; numeric values are
  modelled as integers (no claim depends on fractional float semantics).
  A thrown `ValidationError` is modelled as `Except.error` carrying the
  error's issue list.
-/

namespace Yedra

/-- The fragment of JavaScript runtime values the validation core manipulates.
Numbers are modelled as integers. -/
inductive JsValue where
  | str (s : String)
  | num (n : Int)
  | bool (b : Bool)
  | null
  | undefined
  | obj (fields : List (String × JsValue))

/-- JavaScript `typeof` on the modelled values (`typeof null` is "object"). -/
def jsTypeof : JsValue → String
  | .str _ => "string"
  | .num _ => "number"
  | .bool _ => "boolean"
  | .null => "object"
  | .undefined => "undefined"
  | .obj _ => "object"

/-- JavaScript truthiness of the modelled values. -/
def jsTruthy : JsValue → Bool
  | .str s => s ≠ ""
  | .num n => n ≠ 0
  | .bool b => b
  | .null => false
  | .undefined => false
  | .obj _ => true

/-- JavaScript `s.startsWith(c)` for a one-character test: the first
character of the string is `c`. -/
def headIs (s : String) (c : Char) : Bool := s.toList.head? = some c

/-- JavaScript `s.endsWith(c)` for a one-character test: the last character
of the string is `c`. -/
def lastIs (s : String) (c : Char) : Bool := s.toList.getLast? = some c

/-- JavaScript `s.toLowerCase()` on the ASCII strings the router sees. -/
def lowerStr (s : String) : String := String.mk (s.toList.map Char.toLower)

/-- JavaScript `s.split("/")` on the character list. -/
def splitSlashAux : List Char → List String
  | [] => [""]
  | c :: rest =>
    if c = '/' then "" :: splitSlashAux rest
    else
      match splitSlashAux rest with
      | [] => [String.mk [c]]
      | h :: t => String.mk (c :: h.toList) :: t

/-- JavaScript `s.split("/")`: the segments between slashes (an empty string
splits to one empty segment). -/
def splitSlash (s : String) : List String := splitSlashAux s.toList

/-- src/validation/error.ts: `Issue` — one localized validation failure. -/
structure Issue where
  path : List String
  message : String
deriving Repr, DecidableEq

/-- A parse either returns a value or throws a `ValidationError`, modelled by
its list of issues. -/
abbrev ParseResult := Except (List Issue) JsValue

/-- src/validation/error.ts: `ValidationError.withPrefix` — prepend a segment
to every issue's path. -/
def withPrefixSeg (seg : String) (issues : List Issue) : List Issue :=
  issues.map (fun i => ⟨seg :: i.path, i.message⟩)

/- ===================== src/routing/path.ts (as shipped) ===================== -/

/-- Lower-case ASCII letter or digit (the regex class [a-z0-9]). -/
def isLowerAlnum (c : Char) : Bool :=
  (('a' ≤ c) && (c ≤ 'z')) || (('0' ≤ c) && (c ≤ '9'))

/-- src/routing/path.ts line 22: JavaScript test of
`part.match(/^(:?[a-z0-9]+\??)|\*$/)`.  In JavaScript the alternation binds
looser than the anchors, so the test succeeds when EITHER the beginning of the
string matches `:?[a-z0-9]+\??` (that is, an optional colon followed by at
least one [a-z0-9]; the optional `?` never constrains anything) OR the string
ends with `*`. -/
def jsSegmentTest (s : String) : Bool :=
  (match s.toList with
   | [] => false
   | c :: rest =>
     isLowerAlnum c ||
       (c = ':' && (match rest with
                    | c2 :: _ => isLowerAlnum c2
                    | [] => false))) ||
  lastIs s '*'

/-- src/routing/path.ts constructor: validate and split the pattern.
Returns the compiled segment list or the construction error message.
Note `if (invalidSegment)` on line 24: a found-but-empty segment is falsy in
JavaScript, so an empty first offending segment does not throw. -/
def mkPath (path : String) : Except String (List String) :=
  if ¬ headIs path '/' then
    .error ("API path " ++ path ++ " is invalid: Must start with '/'.")
  else
    let expected := splitSlash (path.drop 1)
    match expected.find? (fun part => ¬ jsSegmentTest part) with
    | some seg =>
      if seg ≠ "" then
        .error ("API path " ++ path ++ " is invalid: Segment " ++ seg ++
          " does not match regex.")
      else mkPathTail path expected
    | none => mkPathTail path expected
where
  /-- The wildcard-position and optional-suffix checks of the constructor. -/
  mkPathTail (path : String) (expected : List String) :
      Except String (List String) :=
    match expected.findIdx? (fun part => part = "*") with
    | some i =>
      if i ≠ expected.length - 1 then
        .error ("API path " ++ path ++
          " is invalid: * must be the last path segment.")
      else mkPathOpt path expected
    | none => mkPathOpt path expected
  /-- Once one segment is optional, all following segments must be optional. -/
  mkPathOpt (path : String) (expected : List String) :
      Except String (List String) :=
    match expected.findIdx? (fun part => lastIs part '?') with
    | some i =>
      if ¬ (expected.drop i).all (fun part => lastIs part '?') then
        .error ("API path " ++ path ++
          " is invalid: Optional segment cannot be followed by non-optional segment.")
      else .ok expected
    | none => .ok expected

/-- src/routing/path.ts `normalizeParam` (lines 113-122), verbatim: the local
`result` strips the leading colon, the second step computes
`result.substring(0, param.length - 1)`, and the function then returns
`param` — the original argument — unchanged. -/
def normalizeParam (param : String) : String :=
  let result := if headIs param ':' then param.drop 1 else param
  let result := if lastIs result '?' then result.take (param.length - 1)
                else result
  let _ := result
  param

/-- JavaScript record assignment `params[key] = value` on a string record:
overwrite an existing key in place, otherwise append. -/
def recSet (params : List (String × String)) (key value : String) :
    List (String × String) :=
  match params with
  | [] => [(key, value)]
  | (k, v) :: rest =>
    if k = key then (k, value) :: rest else (k, v) :: recSet rest key value

/-- The segment walk of src/routing/path.ts `Path.match` (lines 86-106): the
loop runs over the concrete segments; a wildcard pattern segment returns the
parameters collected so far (skipping the post-loop leftover check), a
`:`-segment records the concrete segment under `normalizeParam`, a literal
segment must equal the lower-cased concrete segment.  When the concrete
segments run out, the post-loop check of lines 99-106 applies: the pattern may
have leftover segments only if the first leftover ends in `?`.  (The case of
more concrete than pattern segments inside the loop is unreachable for
patterns accepted by the constructor, where `*` is final; JavaScript would
crash there.) -/
def matchWalk : List String → List String → List (String × String) →
    Option (List (String × String))
  | [], actual, params =>
    match actual with
    | [] => some params
    | _ :: _ => none
  | e :: erest, actual, params =>
    match actual with
    | [] => if lastIs e '?' then some params else none
    | a :: arest =>
      if e = "*" then some params
      else if headIs e ':' then
        matchWalk erest arest (recSet params (normalizeParam e) a)
      else if e ≠ lowerStr a then none
      else matchWalk erest arest params

/-- src/routing/path.ts `Path.match` (lines 79-107): length guard, then the
segment walk with its post-loop leftover check. -/
def pathMatch (expected : List String) (path : String) :
    Option (List (String × String)) :=
  let actual := splitSlash (path.drop 1)
  if expected.length < actual.length && ¬ expected.contains "*" then none
  else matchWalk expected actual []

/- ===================== Schema algebra ===================== -/

/-- A schema, as the validation core sees it: a parse function (throwing a
`ValidationError` is modelled by `Except.error` with the issue list) and the
`isOptional()` flag (src/validation/schema.ts, default false). -/
structure SchemaM where
  parse : JsValue → ParseResult
  isOptional : Bool := false

/-- src/validation/string.ts `StringSchema.parse`. -/
def stringParse (v : JsValue) : ParseResult :=
  match v with
  | .str s => .ok (.str s)
  | v => .error [⟨[], "Expected string but got " ++ jsTypeof v⟩]

def stringSchemaM : SchemaM := ⟨stringParse, false⟩

/-- `Number.parseFloat`, modelled on integer-valued numeric literals: an
optional sign followed by a longest decimal-digit prefix; `none` models NaN.
(Numbers are modelled as integers throughout; no claim exercises fractional
floats.) -/
def jsParseFloat (s : String) : Option Int :=
  let signSplit : Bool × List Char :=
    match s.toList with
    | '-' :: cs => (true, cs)
    | '+' :: cs => (false, cs)
    | cs => (false, cs)
  let digits := signSplit.2.takeWhile (fun c => c.isDigit)
  if digits = [] then none
  else
    let n : Nat := digits.foldl (fun acc c => acc * 10 + (c.toNat - '0'.toNat)) 0
    some (if signSplit.1 then -(n : Int) else (n : Int))

/-- The min/max range checks of src/validation/number.ts `NumberSchema.parse`
(lines 42-52). -/
def numberCheck (minValue maxValue : Option Int) (n : Int) : ParseResult :=
  match minValue with
  | some m =>
    if n < m then
      .error [⟨[], "Must be at least " ++ toString m ++ ", but was " ++ toString n⟩]
    else numberMax maxValue n
  | none => numberMax maxValue n
where
  numberMax (maxValue : Option Int) (n : Int) : ParseResult :=
    match maxValue with
    | some m =>
      if n > m then
        .error [⟨[], "Must be at most " ++ toString m ++ ", but was " ++ toString n⟩]
      else .ok (.num n)
    | none => .ok (.num n)

/-- src/validation/number.ts `NumberSchema.parse`: accepts a number or a
numeric-looking string (coerced with `Number.parseFloat`); NaN is rejected
with the same message as the typeof check. -/
def numberParse (minValue maxValue : Option Int) (v : JsValue) : ParseResult :=
  match v with
  | .num n => numberCheck minValue maxValue n
  | .str s =>
    match jsParseFloat s with
    | some n => numberCheck minValue maxValue n
    | none => .error [⟨[], "Expected number but got string"⟩]
  | v => .error [⟨[], "Expected number but got " ++ jsTypeof v⟩]

def numberSchemaM : SchemaM := ⟨numberParse none none, false⟩

/- ===================== src/validation/enum.ts ===================== -/

/-- A declared enum option: a string or number literal. -/
inductive EnumOpt where
  | str (s : String)
  | num (n : Int)
deriving Repr, DecidableEq

/-- The stringified (normalized) form of an option, as built in the
`EnumSchema` constructor via `option.toString()`. -/
def EnumOpt.toStr : EnumOpt → String
  | .str s => s
  | .num n => toString n

/-- The originally declared option value, as a runtime value. -/
def EnumOpt.toValue : EnumOpt → JsValue
  | .str s => .str s
  | .num n => .num n

/-- `this.normalized.indexOf(normalizedObj)` followed by
`this.options[index]`: the first option whose stringified form equals the
normalized input. -/
def enumLookup : List EnumOpt → String → Option EnumOpt
  | [], _ => none
  | o :: rest, nrm => if o.toStr = nrm then some o else enumLookup rest nrm

/-- src/validation/enum.ts `EnumSchema.parse` after the typeof guard, acting
on the stringified input. -/
def enumParseNorm (opts : List EnumOpt) (nrm : String) : ParseResult :=
  match enumLookup opts nrm with
  | some o => .ok o.toValue
  | none =>
    .error [⟨[], "Expected one of " ++
      String.intercalate ", " (opts.map EnumOpt.toStr) ++ " but got " ++ nrm⟩]

/-- src/validation/enum.ts `EnumSchema.parse` (lines 16-40): only strings and
numbers are accepted; matching is on the stringified forms; the declared
option value is returned. -/
def enumParse (opts : List EnumOpt) (v : JsValue) : ParseResult :=
  match v with
  | .str s => enumParseNorm opts s
  | .num n => enumParseNorm opts (toString n)
  | v =>
    .error [⟨[], "Expected one of " ++
      String.intercalate ", " (opts.map EnumOpt.toStr) ++ " but got " ++
      jsTypeof v⟩]

/- ===================== src/validation/union.ts ===================== -/

/-- The alternative loop of `UnionSchema.parse`: try each alternative in
declared order, return the first success, push every failing alternative's
issues; when the options run out, throw the collected issues. -/
def unionGo : List SchemaM → JsValue → List Issue → ParseResult
  | [], _, issues => .error issues
  | o :: rest, v, issues =>
    match o.parse v with
    | .ok r => .ok r
    | .error is => unionGo rest v (issues ++ is)

/-- src/validation/union.ts `UnionSchema.parse` (lines 57-71 of the module as
shipped; the issue-aggregating revision consistent with error.ts and
union.test.ts). -/
def unionParse (opts : List SchemaM) (v : JsValue) : ParseResult :=
  unionGo opts v []

/- ===================== src/validation/intersection.ts ===================== -/

/-- The issues carried by a failed parse; a success contributes none. -/
def exceptIssues : ParseResult → List Issue
  | .ok _ => []
  | .error is => is

/-- JavaScript object spread contribution of a value: objects contribute
their fields, strings their index/character properties, every other primitive
nothing. -/
def spreadFields : JsValue → List (String × JsValue)
  | .obj fs => fs
  | .str s => s.toList.enum.map (fun p => (toString p.1, JsValue.str (String.mk [p.2])))
  | _ => []

/-- JavaScript property assignment on an object: overwrite an existing key in
place, otherwise append. -/
def jsSetVal (fields : List (String × JsValue)) (key : String) (v : JsValue) :
    List (String × JsValue) :=
  match fields with
  | [] => [(key, v)]
  | (k, w) :: rest =>
    if k = key then (k, v) :: rest else (k, w) :: jsSetVal rest key v

/-- The object literal `{...left, ...right}`: spread left, then right, with
right-hand fields winning on key collision. -/
def jsSpreadMerge (l r : JsValue) : JsValue :=
  .obj ((spreadFields l ++ spreadFields r).foldl
    (fun acc kv => jsSetVal acc kv.1 kv.2) [])

/-- src/validation/intersection.ts `IntersectionSchema.parse` (lines 48-74 of
the module as shipped; the issue-aggregating revision consistent with
error.ts): both sides are parsed, their issues are collected, and the check
`if (!(left && right))` throws — it tests JavaScript truthiness of the parsed
values, so a falsy successful parse (0, "", false, null, undefined) is
treated like a failure. -/
def intersectionParse (left right : SchemaM) (v : JsValue) : ParseResult :=
  let lres := left.parse v
  let rres := right.parse v
  let issues := exceptIssues lres ++ exceptIssues rres
  match lres, rres with
  | .ok lv, .ok rv =>
    if jsTruthy lv && jsTruthy rv then .ok (jsSpreadMerge lv rv)
    else .error issues
  | _, _ => .error issues

/- ===================== src/validation/modifiable.ts ===================== -/

/-- src/validation/modifiable.ts `OptionalSchema.parse` (lines 50-55):
undefined and null short-circuit to undefined; everything else is delegated
to the wrapped schema. -/
def optionalParse (inner : SchemaM) (v : JsValue) : ParseResult :=
  match v with
  | .undefined => .ok .undefined
  | .null => .ok .undefined
  | v => inner.parse v

/-- `schema.optional()`: wrap with `OptionalSchema`; `isOptional()` is true. -/
def mkOptional (inner : SchemaM) : SchemaM := ⟨optionalParse inner, true⟩

/- ===================== src/validation/object.ts ===================== -/

/-- JavaScript `prop in obj` on the modelled object fields. -/
def hasKeyV (fields : List (String × JsValue)) (k : String) : Bool :=
  fields.any (fun kv => kv.1 = k)

/-- JavaScript `prop in this.shape` on the declared shape. -/
def hasKeyS (shape : List (String × SchemaM)) (k : String) : Bool :=
  shape.any (fun kv => kv.1 = k)

/-- `obj[prop]`: the value at a key, undefined when absent. -/
def getKeyV (fields : List (String × JsValue)) (k : String) : JsValue :=
  match fields.find? (fun kv => kv.1 = k) with
  | some kv => kv.2
  | none => .undefined

/-- The shape iteration of `ObjectSchema.parse` (lines 52-69): for each
declared field in order, a missing non-optional field contributes a Required
issue; otherwise the child schema parses the value (undefined when absent)
and child failures are re-rooted under the field name.  Shape keys are unique
(a JavaScript object literal), so building the result by cons matches the
source's `result[prop] = ...` assignments. -/
def shapePass (shape : List (String × SchemaM))
    (fields : List (String × JsValue)) :
    List (String × JsValue) × List Issue :=
  match shape with
  | [] => ([], [])
  | (prop, sch) :: rest =>
    let tail := shapePass rest fields
    if ¬ (hasKeyV fields prop || sch.isOptional) then
      (tail.1, ⟨[prop], "Required"⟩ :: tail.2)
    else
      match sch.parse (getKeyV fields prop) with
      | .ok r => ((prop, r) :: tail.1, tail.2)
      | .error childIssues => (tail.1, withPrefixSeg prop childIssues ++ tail.2)

/-- The strict-mode extra-key scan of `ObjectSchema.parse` (lines 70-77): one
Unrecognized issue per input key absent from the shape, in input order. -/
def unrecognizedScan (shape : List (String × SchemaM))
    (fields : List (String × JsValue)) : List Issue :=
  fields.filterMap (fun kv =>
    if hasKeyS shape kv.1 then none else some ⟨[kv.1], "Unrecognized"⟩)

/-- src/validation/object.ts `ObjectSchema.parse` (lines 35-82): typeof and
null guards, whole-shape iteration, strict-mode (`lax = false`) extra-key
scan, and a single ValidationError carrying all collected issues. -/
def objectParse (shape : List (String × SchemaM)) (lax : Bool) (v : JsValue) :
    ParseResult :=
  match v with
  | .null => .error [⟨[], "Expected object but got null"⟩]
  | .obj fields =>
    let pass := shapePass shape fields
    let issues := pass.2 ++ (if lax then [] else unrecognizedScan shape fields)
    if issues.length > 0 then .error issues else .ok (.obj pass.1)
  | v => .error [⟨[], "Expected object but got " ++ jsTypeof v⟩]

/- ============== Path.match with score, and the request router ============== -/

/-- A specificity score: a finite count of captured parameters, or the
infinite (maximal) wildcard score. -/
inductive Score where
  | fin (n : Nat)
  | inf
deriving Repr, DecidableEq

/-- JavaScript `<` on scores, with `inf` as `Number.POSITIVE_INFINITY`. -/
def Score.blt : Score → Score → Bool
  | .inf, _ => false
  | .fin _, .inf => true
  | .fin a, .fin b => a < b

/-- JavaScript `<=` on scores. -/
def Score.ble : Score → Score → Bool
  | _, .inf => true
  | .inf, .fin _ => false
  | .fin a, .fin b => a ≤ b

/-- Modelled from the spec: the current `Path` strips `:` and `?` from a
parameter segment to obtain its normalized name (the repository ships only the
superseded path.ts whose `normalizeParam` returns its argument; the revision
used by src/routing/app.ts is not among the sources). -/
def specNormalizeParam (param : String) : String :=
  let r := if headIs param ':' then param.drop 1 else param
  if lastIs r '?' then String.mk r.toList.dropLast else r

/-- Modelled from the spec (§4.5 step 2): the segment walk of the current
`Path.match`, which returns captured params together with a specificity
score — a wildcard segment matches and terminates immediately with the
maximal score; leftover pattern segments must all be optional or a wildcard;
otherwise the score is the number of captured parameters.  This revision of
path.ts is not under src/ (only its callers in src/routing/app.ts and its
tests are); behavior corroborated by the repository's path tests. -/
def specMatchWalk : List String → List String → List (String × String) →
    Option (List (String × String) × Score)
  | [], actual, params =>
    match actual with
    | [] => some (params, .fin params.length)
    | _ :: _ => none
  | e :: erest, actual, params =>
    match actual with
    | [] =>
      if (e :: erest).all (fun s => lastIs s '?' || s = "*") then
        some (params,
          if (e :: erest).contains "*" then .inf else .fin params.length)
      else none
    | a :: arest =>
      if e = "*" then some (params, .inf)
      else if headIs e ':' then
        specMatchWalk erest arest (recSet params (specNormalizeParam e) a)
      else if e ≠ lowerStr a then none
      else specMatchWalk erest arest params

/-- Modelled from the spec (§4.5 step 2): the current `Path.match` — length
guard, then the scored segment walk. -/
def specPathMatch (expected : List String) (path : String) :
    Option (List (String × String) × Score) :=
  let actual := splitSlash (path.drop 1)
  if expected.length < actual.length && ¬ expected.contains "*" then none
  else specMatchWalk expected actual []

/-- HTTP methods handled by the router. -/
inductive Method where
  | GET
  | POST
  | PUT
  | DELETE
deriving Repr, DecidableEq

/-- A registered REST route: compiled path pattern, method, and an opaque
handler identity. -/
structure RestRoute where
  pattern : List String
  method : Method
  tag : Nat
deriving Repr, DecidableEq

/-- The winning match: handler identity, captured params, and its score. -/
structure RouteMatch where
  tag : Nat
  params : List (String × String)
  score : Score
deriving Repr, DecidableEq

/-- The route loop of src/routing/app.ts `BuiltApp.matchRestRoute` (lines
325-354): skip non-matching paths, record a method mismatch and continue,
otherwise keep the running result unless the new score is strictly smaller
(`score < previous`), so ties keep the first-registered entry. -/
def matchRestGo : List RestRoute → String → Method → Bool → Option RouteMatch →
    Bool × Option RouteMatch
  | [], _, _, invalidMethod, result => (invalidMethod, result)
  | r :: rest, url, method, invalidMethod, result =>
    match specPathMatch r.pattern url with
    | none => matchRestGo rest url method invalidMethod result
    | some m =>
      if r.method ≠ method then matchRestGo rest url method true result
      else
        match result with
        | none =>
          matchRestGo rest url method invalidMethod (some ⟨r.tag, m.1, m.2⟩)
        | some prev =>
          if Score.blt m.2 prev.score then
            matchRestGo rest url method invalidMethod (some ⟨r.tag, m.1, m.2⟩)
          else matchRestGo rest url method invalidMethod (some prev)

/-- src/routing/app.ts `BuiltApp.matchRestRoute`: returns the
method-mismatch flag and the winning match, if any. -/
def matchRestRoute (routes : List RestRoute) (url : String) (method : Method) :
    Bool × Option RouteMatch :=
  matchRestGo routes url method false none

/-- The candidates of a request: every registered entry whose path matches
and whose method equals the request method, in registration order. -/
def restCandidates (routes : List RestRoute) (url : String) (method : Method) :
    List RouteMatch :=
  routes.filterMap (fun r =>
    match specPathMatch r.pattern url with
    | none => none
    | some m => if r.method = method then some ⟨r.tag, m.1, m.2⟩ else none)

/- ===================== src/util/counter.ts ===================== -/

/-- src/util/counter.ts `Counter`: the shutdown barrier.  `pending` models
whether `this.resolve` holds a waiter's continuation. -/
structure Counter where
  count : Int
  pending : Bool
deriving Repr, DecidableEq

/-- `Counter.wait()`: resolves immediately (second component true) when the
count is zero, otherwise stores the waiter. -/
def Counter.wait (c : Counter) : Counter × Bool :=
  if c.count = 0 then (c, true) else ({ c with pending := true }, false)

/-- `Counter.increment()`. -/
def Counter.increment (c : Counter) : Counter :=
  { c with count := c.count + 1 }

/-- `Counter.decrement()`: decrements, and fires the stored waiter (second
component) exactly when the new count is zero and a waiter is stored. -/
def Counter.decrement (c : Counter) : Counter × Bool :=
  let c2 : Counter := { c with count := c.count - 1 }
  (c2, (c2.count == 0) && c.pending)

/-- An increment or decrement operation on the barrier. -/
inductive COp where
  | inc
  | dec
deriving Repr, DecidableEq

/-- One counter operation, returning the new state and whether the stored
waiter fired. -/
def Counter.step (c : Counter) : COp → Counter × Bool
  | .inc => (c.increment, false)
  | .dec => c.decrement

/-- Run a sequence of counter operations. -/
def Counter.runOps (c : Counter) (ops : List COp) : Counter :=
  ops.foldl (fun s op => (s.step op).1) c

/- ===================== Statement apparatus ===================== -/

/-- Modelled from the spec: the documented segment pattern
`^((:?[a-z0-9-]+\??)|\*)$` — exactly `*`, or an optional colon, then one or
more characters from [a-z0-9-], then an optional trailing `?`. -/
def specSegmentOk (s : String) : Bool :=
  s = "*" ||
  (let body := match s.toList with
    | ':' :: rest => rest
    | cs => cs
   let core := if body.getLast? = some '?' then body.dropLast else body
   core ≠ [] && core.all (fun c => isLowerAlnum c || c = '-'))

/-- The result of the first alternative whose parse succeeds, if any. -/
def unionFirstOk : List SchemaM → JsValue → Option JsValue
  | [], _ => none
  | o :: rest, v =>
    match o.parse v with
    | .ok r => some r
    | .error _ => unionFirstOk rest v

/-- The concatenation of every alternative's issues, in declared order. -/
def unionAllIssues : List SchemaM → JsValue → List Issue
  | [], _ => []
  | o :: rest, v => exceptIssues (o.parse v) ++ unionAllIssues rest v

/-- JavaScript truthiness of the `left`/`right` variables of
`IntersectionSchema.parse`: falsy when the side failed (the variable keeps
its `undefined` initializer) and otherwise the truthiness of the parsed
value. -/
def truthyRes : ParseResult → Bool
  | .ok v => jsTruthy v
  | .error _ => false

/- ===================== Claim theorems ===================== -/

theorem unionGo_eq (opts : List SchemaM) (v : JsValue) :
    ∀ acc : List Issue,
      unionGo opts v acc =
        match unionFirstOk opts v with
        | some r => .ok r
        | none => .error (acc ++ unionAllIssues opts v) := by
  induction opts with
  | nil => intro acc; simp [unionGo, unionFirstOk, unionAllIssues]
  | cons o rest ih =>
    intro acc
    simp only [unionGo, unionFirstOk, unionAllIssues]
    cases h : o.parse v with
    | ok r => simp
    | error is =>
      show unionGo rest v (acc ++ is) =
        match unionFirstOk rest v with
        | some r => Except.ok r
        | none => Except.error (acc ++ (is ++ unionAllIssues rest v))
      rw [ih (acc ++ is)]
      cases unionFirstOk rest v <;> simp

/-- C1: for every union schema and input, parse tries the alternatives in
declared order and returns the result of the first alternative whose parse
succeeds; if every alternative fails it throws one ValidationError whose
issues are the concatenation of every alternative's issues; in particular
`union(string(), number()).parse({})` fails with exactly two issues, one per
alternative. -/
theorem c1_union_first_success_or_aggregated_issues :
    (∀ (opts : List SchemaM) (v : JsValue),
      unionParse opts v =
        match unionFirstOk opts v with
        | some r => .ok r
        | none => .error (unionAllIssues opts v)) ∧
    unionParse [stringSchemaM, numberSchemaM] (.obj []) =
      .error [⟨[], "Expected string but got object"⟩,
              ⟨[], "Expected number but got object"⟩] := by
  constructor
  · intro opts v
    rw [unionParse, unionGo_eq opts v []]
    cases unionFirstOk opts v <;> simp
  · rfl

/-- C3: the claim says a matched parameter segment `:name` is recorded under
the normalized key `name` (colon and question mark stripped), but
`normalizeParam` returns its argument unchanged (its final statement is
`return param`, not `return result`), so `Path("/abc/:id").match("/abc/test")`
records the capture under the raw key `":id"` — contradicting the method's
own doc comment and path.test.ts, which expects `{id: "test"}`. -/
theorem c3_normalizeParam_keeps_colon_and_question_mark :
    normalizeParam ":id" = ":id" ∧
    normalizeParam ":id?" = ":id?" ∧
    pathMatch ["abc", ":id"] "/abc/test" = some [(":id", "test")] ∧
    pathMatch ["abc", ":id"] "/abc/test" ≠ some [("id", "test")] := by
  refine ⟨rfl, rfl, rfl, by decide⟩

/-- C4: the claim says construction fails whenever a segment does not match
`^((:?[a-z0-9-]+\??)|\*)$`, but the constructor's JavaScript regex
`/^(:?[a-z0-9]+\??)|\*$/` groups as (anchored head) OR (anchored tail), so
any segment with a [a-z0-9] prefix passes: `Path("/abc/hello_world")`
constructs successfully even though `hello_world` fails the documented
pattern — contradicting path.test.ts, which expects this construction to
throw.  The other claimed invariants (leading slash, wildcard last, optional
suffix closure) do reject their examples. -/
theorem c4_constructor_accepts_undocumented_segment :
    mkPath "/abc/hello_world" = .ok ["abc", "hello_world"] ∧
    specSegmentOk "hello_world" = false ∧
    (mkPath "/a/*/b").isOk = false ∧
    (mkPath "/a?/b").isOk = false ∧
    (mkPath "abc/test").isOk = false := by
  refine ⟨rfl, rfl, rfl, rfl, rfl⟩

/-- C5: the claim says a pattern whose single leftover segment is `*` still
matches, but the post-loop check of `Path.match` only accepts leftover
segments when the first one ends in `?`, so `Path("/abc/*").match("/abc")`
returns a non-match — contradicting path.test.ts, which expects `{}` — while
the same pattern does match longer paths through the in-loop wildcard
branch. -/
theorem c5_wildcard_leftover_is_rejected :
    mkPath "/abc/*" = .ok ["abc", "*"] ∧
    pathMatch ["abc", "*"] "/abc" = none ∧
    pathMatch ["abc", "*"] "/abc/def/123" = some [] ∧
    pathMatch ["abc", "def?"] "/abc" = some [] := by
  refine ⟨rfl, rfl, rfl, rfl⟩

/-- C7 counterexample: both sub-schemas' parse succeed on the input 0 (the
number schema returns 0), yet the intersection's parse throws — the
`if (!(left && right))` check tests truthiness of the parsed values, and 0 is
falsy — and the thrown ValidationError carries no issues at all. -/
theorem c7_cx_intersection_rejects_falsy_success :
    numberParse none none (.num 0) = .ok (.num 0) ∧
    intersectionParse numberSchemaM numberSchemaM (.num 0) = .error [] := by
  refine ⟨rfl, rfl⟩

/-- C7 (amended): when both sides succeed with truthy values the intersection
succeeds with the shallow merge (right-hand fields winning); whenever the
truthiness check fails — either side failed, or a side succeeded with a falsy
value — it throws a ValidationError carrying the issues collected from both
sides (none from a successful side). -/
theorem c7_intersection_merge_or_collected_issues :
    (∀ (l r : SchemaM) (v lv rv : JsValue),
      l.parse v = .ok lv → r.parse v = .ok rv →
      jsTruthy lv = true → jsTruthy rv = true →
      intersectionParse l r v = .ok (jsSpreadMerge lv rv)) ∧
    (∀ (l r : SchemaM) (v : JsValue),
      (truthyRes (l.parse v) && truthyRes (r.parse v)) = false →
      intersectionParse l r v =
        .error (exceptIssues (l.parse v) ++ exceptIssues (r.parse v))) := by
  constructor
  · intro l r v lv rv hl hr htl htr
    simp [intersectionParse, hl, hr, htl, htr]
  · intro l r v h
    cases hl : l.parse v with
    | ok lv =>
      cases hr : r.parse v with
      | ok rv =>
        rw [hl, hr] at h
        simp only [truthyRes] at h
        simp [intersectionParse, hl, hr, h]
      | error ri => simp [intersectionParse, hl, hr]
    | error li => cases hr : r.parse v <;> simp [intersectionParse, hl, hr]

/-- C7 witness: the amended theorem applied at concrete inputs — a truthy
two-sided success merges with right-hand override, and a two-sided failure
collects both sides' issues. -/
theorem c7_intersection_witness :
    intersectionParse ⟨fun _ => .ok (.obj [("a", .num 1), ("b", .num 2)]), false⟩
      ⟨fun _ => .ok (.obj [("b", .num 3)]), false⟩ .null =
      .ok (.obj [("a", .num 1), ("b", .num 3)]) ∧
    intersectionParse stringSchemaM numberSchemaM (.obj []) =
      .error [⟨[], "Expected string but got object"⟩,
              ⟨[], "Expected number but got object"⟩] := by
  constructor
  · exact c7_intersection_merge_or_collected_issues.1
      ⟨fun _ => .ok (.obj [("a", .num 1), ("b", .num 2)]), false⟩
      ⟨fun _ => .ok (.obj [("b", .num 3)]), false⟩ .null
      (.obj [("a", .num 1), ("b", .num 2)]) (.obj [("b", .num 3)])
      rfl rfl rfl rfl
  · exact c7_intersection_merge_or_collected_issues.2
      stringSchemaM numberSchemaM (.obj []) rfl

/-- C10: a schema wrapped with `optional()` maps null to a successful
undefined exactly like an undefined input, for every inner schema — null is
never delegated to the inner schema — and in particular
`string().optional().parse(null)` succeeds with undefined even though the
bare string schema rejects null with an Expected-string issue. -/
theorem c10_optional_null_short_circuits :
    (∀ inner : SchemaM, (mkOptional inner).parse .null = .ok .undefined) ∧
    (∀ inner : SchemaM,
      (mkOptional inner).parse .null = (mkOptional inner).parse .undefined) ∧
    (mkOptional stringSchemaM).parse .null = .ok .undefined ∧
    stringParse .null = .error [⟨[], "Expected string but got object"⟩] :=
  ⟨fun _ => rfl, fun _ => rfl, rfl, rfl⟩

theorem enumLookup_mem {opts : List EnumOpt} {nrm : String} {o : EnumOpt}
    (h : enumLookup opts nrm = some o) : o ∈ opts ∧ o.toStr = nrm := by
  induction opts with
  | nil => simp [enumLookup] at h
  | cons a rest ih =>
    rw [enumLookup] at h
    by_cases ha : a.toStr = nrm
    · simp [ha] at h
      exact ⟨by simp [h.symm], h ▸ ha⟩
    · simp [ha] at h
      rcases ih h with ⟨h1, h2⟩
      exact ⟨List.mem_cons_of_mem a h1, h2⟩

theorem enumLookup_isSome {opts : List EnumOpt} {nrm : String} :
    (enumLookup opts nrm).isSome = true ↔ nrm ∈ opts.map EnumOpt.toStr := by
  induction opts with
  | nil => simp [enumLookup]
  | cons a rest ih =>
    rw [enumLookup]
    by_cases ha : a.toStr = nrm
    · simp [ha]
    · simp [ha, ih, Ne.symm ha]

/-- C9: enum matching is on the stringified forms — a number input behaves
exactly like its decimal-string form — parse succeeds on a string-or-number
input exactly when the stringified input equals the stringification of some
declared option, and a success returns the originally declared option value
(an option whose stringification equals the stringified input), e.g.
`enum(3).parse("3")` returns the number 3. -/
theorem c9_enum_stringified_matching :
    (∀ (opts : List EnumOpt) (n : Int),
      enumParse opts (.num n) = enumParse opts (.str (toString n))) ∧
    (∀ (opts : List EnumOpt) (s : String),
      (enumParse opts (.str s)).isOk = true ↔ s ∈ opts.map EnumOpt.toStr) ∧
    (∀ (opts : List EnumOpt) (s : String) (r : JsValue),
      enumParse opts (.str s) = .ok r →
      ∃ o : EnumOpt, o ∈ opts ∧ o.toStr = s ∧ r = o.toValue) ∧
    enumParse [.num 3] (.str "3") = .ok (.num 3) := by
  refine ⟨fun _ _ => rfl, ?_, ?_, rfl⟩
  · intro opts s
    have hok : (enumParse opts (.str s)).isOk = (enumLookup opts s).isSome := by
      rw [show enumParse opts (.str s) = enumParseNorm opts s from rfl,
        enumParseNorm]
      cases enumLookup opts s <;> rfl
    rw [hok]
    exact enumLookup_isSome
  · intro opts s r h
    rw [show enumParse opts (.str s) = enumParseNorm opts s from rfl,
      enumParseNorm] at h
    cases hl : enumLookup opts s with
    | none => rw [hl] at h; simp at h
    | some o =>
      rw [hl] at h
      simp only [Except.ok.injEq] at h
      rcases enumLookup_mem hl with ⟨h1, h2⟩
      exact ⟨o, h1, h2, h.symm⟩

/-- C9 witness: the iff applied at a concrete success and a concrete failure,
and the success-shape clause at the coercion example. -/
theorem c9_enum_witness :
    ((enumParse [.num 3, .str "hi"] (.str "3")).isOk = true ↔
      "3" ∈ [EnumOpt.num 3, EnumOpt.str "hi"].map EnumOpt.toStr) ∧
    ((enumParse [.num 3, .str "hi"] (.str "4")).isOk = true ↔
      "4" ∈ [EnumOpt.num 3, EnumOpt.str "hi"].map EnumOpt.toStr) ∧
    (∃ o : EnumOpt, o ∈ [EnumOpt.num 3] ∧ o.toStr = "3" ∧
      JsValue.num 3 = o.toValue) := by
  refine ⟨c9_enum_stringified_matching.2.1 [.num 3, .str "hi"] "3",
    c9_enum_stringified_matching.2.1 [.num 3, .str "hi"] "4",
    c9_enum_stringified_matching.2.2.1 [.num 3] "3" (.num 3) rfl⟩

theorem hasKeyS_of_mem {shape : List (String × SchemaM)} {prop : String}
    {sch : SchemaM} (h : (prop, sch) ∈ shape) : hasKeyS shape prop = true := by
  simp only [hasKeyS, List.any_eq_true]
  exact ⟨(prop, sch), h, by simp⟩

theorem shapePass_issue_key {shape : List (String × SchemaM)}
    {fields : List (String × JsValue)} {i : Issue}
    (h : i ∈ (shapePass shape fields).2) :
    ∃ p rest, i.path = p :: rest ∧ hasKeyS shape p = true := by
  induction shape with
  | nil => simp [shapePass] at h
  | cons hd tl ih =>
    obtain ⟨prop, sch⟩ := hd
    have htl : ∀ p rest, i.path = p :: rest → hasKeyS tl p = true →
        hasKeyS ((prop, sch) :: tl) p = true := by
      intro p rest _ hp
      simp only [hasKeyS, List.any_cons, Bool.or_eq_true]
      right
      simpa [hasKeyS] using hp
    simp only [shapePass] at h
    split at h
    · rcases List.mem_cons.1 h with h | h
      · exact ⟨prop, [], by simp [h], by simp [hasKeyS]⟩
      · rcases ih h with ⟨p, rest, h1, h2⟩
        exact ⟨p, rest, h1, htl p rest h1 h2⟩
    · split at h
      · rcases ih h with ⟨p, rest, h1, h2⟩
        exact ⟨p, rest, h1, htl p rest h1 h2⟩
      · rcases List.mem_append.1 h with h | h
        · rcases List.mem_map.1 h with ⟨j, _, hj⟩
          exact ⟨prop, j.path, by simp [hj.symm], by simp [hasKeyS]⟩
        · rcases ih h with ⟨p, rest, h1, h2⟩
          exact ⟨p, rest, h1, htl p rest h1 h2⟩

theorem unrecScan_count_zero {shape : List (String × SchemaM)}
    {fields : List (String × JsValue)} {k : String}
    (h : ¬ k ∈ fields.map Prod.fst) :
    (unrecognizedScan shape fields).count ⟨[k], "Unrecognized"⟩ = 0 := by
  induction fields with
  | nil => simp [unrecognizedScan]
  | cons kv rest ih =>
    have hk : kv.1 ≠ k := by
      intro he
      exact h (by simp [he.symm])
    have hrest : ¬ k ∈ rest.map Prod.fst := fun hm => h (by simp [hm])
    have ih2 := ih hrest
    simp only [unrecognizedScan, List.filterMap_cons] at ih2 ⊢
    by_cases hsk : hasKeyS shape kv.1 = true
    · rw [if_pos hsk]
      exact ih2
    · rw [if_neg hsk, List.count_cons, ih2]
      simp only [beq_iff_eq, Issue.mk.injEq, List.cons.injEq, and_true]
      rw [if_neg (by simp [hk])]

theorem unrecScan_count_one {shape : List (String × SchemaM)}
    {fields : List (String × JsValue)} {k : String}
    (hnd : (fields.map Prod.fst).Nodup)
    (hk : hasKeyS shape k = false) (hmem : k ∈ fields.map Prod.fst) :
    (unrecognizedScan shape fields).count ⟨[k], "Unrecognized"⟩ = 1 := by
  induction fields with
  | nil => simp at hmem
  | cons kv rest ih =>
    rw [List.map_cons, List.nodup_cons] at hnd
    rw [List.map_cons] at hmem
    rcases List.mem_cons.1 hmem with he | hm
    · subst he
      have h0 : (unrecognizedScan shape rest).count ⟨[kv.1], "Unrecognized"⟩ = 0 :=
        unrecScan_count_zero hnd.1
      simp only [unrecognizedScan, List.filterMap_cons] at h0 ⊢
      rw [if_neg (by simp [hk]), List.count_cons, h0]
      simp
    · have hne : kv.1 ≠ k := by
        intro he2
        exact hnd.1 (he2 ▸ hm)
      have ih2 := ih hnd.2 hm
      simp only [unrecognizedScan, List.filterMap_cons] at ih2 ⊢
      by_cases hsk : hasKeyS shape kv.1 = true
      · rw [if_pos hsk]
        exact ih2
      · rw [if_neg hsk, List.count_cons, ih2]
        simp only [beq_iff_eq, Issue.mk.injEq, List.cons.injEq, and_true]
        rw [if_neg (by simp [hne])]

theorem shapePass_unrec_count_zero {shape : List (String × SchemaM)}
    {fields : List (String × JsValue)} {k : String}
    (hk : hasKeyS shape k = false) :
    ((shapePass shape fields).2).count ⟨[k], "Unrecognized"⟩ = 0 := by
  rw [List.count_eq_zero]
  intro hmem
  rcases shapePass_issue_key hmem with ⟨p, rest, h1, h2⟩
  have hp : p = k := by
    have := h1.symm
    simp only [List.cons.injEq] at this
    exact this.1
  rw [hp] at h2
  rw [h2] at hk
  exact absurd hk (by simp)

theorem find?_filter_of_key {fields : List (String × JsValue)} {p : String}
    {q : String × JsValue → Bool}
    (hq : ∀ kv : String × JsValue, kv.1 = p → q kv = true) :
    (fields.filter q).find? (fun kv => kv.1 = p) =
      fields.find? (fun kv => kv.1 = p) := by
  induction fields with
  | nil => rfl
  | cons kv rest ih =>
    by_cases hkv : kv.1 = p
    · rw [List.filter_cons, if_pos (hq kv hkv)]
      rw [List.find?_cons_of_pos _ (by simp [hkv]),
        List.find?_cons_of_pos _ (by simp [hkv])]
    · cases hqv : q kv with
      | true =>
        rw [List.filter_cons, if_pos hqv]
        rw [List.find?_cons_of_neg _ (by simp [hkv]),
          List.find?_cons_of_neg _ (by simp [hkv])]
        exact ih
      | false =>
        rw [List.filter_cons, if_neg (by simp [hqv])]
        rw [List.find?_cons_of_neg _ (by simp [hkv])]
        exact ih

theorem hasKeyV_filter_of_key {fields : List (String × JsValue)} {p : String}
    {q : String × JsValue → Bool}
    (hq : ∀ kv : String × JsValue, kv.1 = p → q kv = true) :
    hasKeyV (fields.filter q) p = hasKeyV fields p := by
  induction fields with
  | nil => rfl
  | cons kv rest ih =>
    by_cases hkv : kv.1 = p
    · rw [List.filter_cons, if_pos (hq kv hkv)]
      simp [hasKeyV, hkv]
    · cases hqv : q kv with
      | true =>
        rw [List.filter_cons, if_pos hqv]
        simp only [hasKeyV, List.any_cons]
        simp only [hasKeyV] at ih
        rw [ih]
      | false =>
        rw [List.filter_cons, if_neg (by simp [hqv])]
        simp only [hasKeyV, List.any_cons]
        simp only [hasKeyV] at ih
        rw [ih]
        simp [hkv]

theorem getKeyV_filter_of_key {fields : List (String × JsValue)} {p : String}
    {q : String × JsValue → Bool}
    (hq : ∀ kv : String × JsValue, kv.1 = p → q kv = true) :
    getKeyV (fields.filter q) p = getKeyV fields p := by
  simp only [getKeyV]
  rw [find?_filter_of_key hq]

theorem shapePass_filter (shape : List (String × SchemaM))
    (fields : List (String × JsValue)) (sh : List (String × SchemaM))
    (hsub : ∀ pr ∈ sh, hasKeyS shape pr.1 = true) :
    shapePass sh (fields.filter (fun kv => hasKeyS shape kv.1)) =
      shapePass sh fields := by
  induction sh with
  | nil => rfl
  | cons hd tl ih =>
    obtain ⟨prop, sch⟩ := hd
    have hq : ∀ kv : String × JsValue, kv.1 = prop →
        hasKeyS shape kv.1 = true := by
      intro kv he
      rw [he]
      exact hsub (prop, sch) (by simp)
    have ihtl := ih (fun pr hpr => hsub pr (List.mem_cons_of_mem _ hpr))
    simp only [shapePass]
    rw [hasKeyV_filter_of_key hq, getKeyV_filter_of_key hq, ihtl]

theorem shapePass_res_key {sh : List (String × SchemaM)}
    {fields : List (String × JsValue)} {kv : String × JsValue}
    (h : kv ∈ (shapePass sh fields).1) : hasKeyS sh kv.1 = true := by
  induction sh with
  | nil => simp [shapePass] at h
  | cons hd tl ih =>
    obtain ⟨prop, sch⟩ := hd
    have htl : hasKeyS tl kv.1 = true → hasKeyS ((prop, sch) :: tl) kv.1 = true := by
      intro hp
      simp only [hasKeyS, List.any_cons, Bool.or_eq_true]
      right
      simpa [hasKeyS] using hp
    simp only [shapePass] at h
    split at h
    · exact htl (ih h)
    · split at h
      · rcases List.mem_cons.1 h with h | h
        · simp [hasKeyS, h]
        · exact htl (ih h)
      · exact htl (ih h)

theorem shapePass_required_mem {sh : List (String × SchemaM)}
    {fields : List (String × JsValue)} {prop : String} {sch : SchemaM}
    (hmem : (prop, sch) ∈ sh) (habs : hasKeyV fields prop = false)
    (hreq : sch.isOptional = false) :
    (⟨[prop], "Required"⟩ : Issue) ∈ (shapePass sh fields).2 := by
  induction sh with
  | nil => simp at hmem
  | cons hd tl ih =>
    obtain ⟨p0, s0⟩ := hd
    rcases List.mem_cons.1 hmem with he | hm
    · cases he
      simp only [shapePass]
      rw [if_pos (by simp [habs, hreq])]
      exact List.mem_cons_self _ _
    · have htl := ih hm
      simp only [shapePass]
      split
      · exact List.mem_cons_of_mem _ htl
      · split
        · exact htl
        · exact List.mem_append_right _ htl

/-- C6: in strict mode each input key absent from the declared shape produces
exactly one Unrecognized issue at that key's path and the parse fails (for
input objects with JavaScript-unique keys); missing required fields are all
reported in the same single error; in lax mode unknown keys are irrelevant to
the outcome and are dropped from the result (every result key comes from the
shape); and on the concrete example, `object({a: string()})` strictly parsing
`{a:"x", b:1}` fails with just the Unrecognized issue at path b while the lax
parse succeeds and drops b. -/
theorem c6_object_strict_lax :
    (∀ (shape : List (String × SchemaM)) (fields : List (String × JsValue))
       (k : String),
      (fields.map Prod.fst).Nodup → hasKeyS shape k = false →
      k ∈ fields.map Prod.fst →
      ∃ issues, objectParse shape false (.obj fields) = .error issues ∧
        issues.count ⟨[k], "Unrecognized"⟩ = 1) ∧
    (∀ (shape : List (String × SchemaM)) (fields : List (String × JsValue))
       (prop : String) (sch : SchemaM) (issues : List Issue),
      (prop, sch) ∈ shape → hasKeyV fields prop = false →
      sch.isOptional = false →
      objectParse shape false (.obj fields) = .error issues →
      (⟨[prop], "Required"⟩ : Issue) ∈ issues) ∧
    (∀ (shape : List (String × SchemaM)) (fields : List (String × JsValue)),
      objectParse shape true (.obj fields) =
        objectParse shape true
          (.obj (fields.filter (fun kv => hasKeyS shape kv.1)))) ∧
    (∀ (shape : List (String × SchemaM)) (fields : List (String × JsValue))
       (res : List (String × JsValue)),
      objectParse shape true (.obj fields) = .ok (.obj res) →
      ∀ kv ∈ res, hasKeyS shape kv.1 = true) ∧
    objectParse [("a", stringSchemaM)] false
      (.obj [("a", .str "x"), ("b", .num 1)]) =
      .error [⟨["b"], "Unrecognized"⟩] ∧
    objectParse [("a", stringSchemaM)] true
      (.obj [("a", .str "x"), ("b", .num 1)]) =
      .ok (.obj [("a", .str "x")]) := by
  refine ⟨?_, ?_, ?_, ?_, rfl, rfl⟩
  · intro shape fields k hnd hk hmem
    have hcount :
        ((shapePass shape fields).2 ++ unrecognizedScan shape fields).count
          ⟨[k], "Unrecognized"⟩ = 1 := by
      rw [List.count_append, shapePass_unrec_count_zero hk,
        unrecScan_count_one hnd hk hmem]
    refine ⟨(shapePass shape fields).2 ++ unrecognizedScan shape fields, ?_, hcount⟩
    have hne0 : (shapePass shape fields).2 ++ unrecognizedScan shape fields ≠ [] := by
      intro h0
      rw [h0] at hcount
      simp at hcount
    have hlen : 0 <
        ((shapePass shape fields).2 ++ unrecognizedScan shape fields).length :=
      List.length_pos.2 hne0
    simp only [objectParse, Bool.false_eq_true, if_false]
    rw [if_pos hlen]
  · intro shape fields prop sch issues hmem habs hreq hpr
    have hin := shapePass_required_mem hmem habs hreq
    simp only [objectParse, Bool.false_eq_true, if_false] at hpr
    split at hpr
    · simp only [Except.error.injEq] at hpr
      rw [← hpr]
      exact List.mem_append_left _ hin
    · exact absurd hpr (by simp)
  · intro shape fields
    have hsub : ∀ pr ∈ shape, hasKeyS shape pr.1 = true := by
      intro pr hpr
      exact hasKeyS_of_mem (show (pr.1, pr.2) ∈ shape by simpa using hpr)
    have hsp := shapePass_filter shape fields shape hsub
    simp only [objectParse]
    rw [hsp]
    simp
  · intro shape fields res hok kv hkv
    simp only [objectParse, if_true] at hok
    split at hok
    · exact absurd hok (by simp)
    · simp only [Except.ok.injEq, JsValue.obj.injEq] at hok
      rw [← hok] at hkv
      exact shapePass_res_key hkv

/-- C6 witness: the general clauses applied at concrete inputs — the strict
failure with its exactly-one Unrecognized count, the Required report, the
lax indifference to unknown keys, and the lax result-key containment. -/
theorem c6_object_witness :
    (∃ issues,
      objectParse [("a", stringSchemaM)] false
        (.obj [("a", .str "x"), ("b", .num 1)]) = .error issues ∧
      issues.count ⟨["b"], "Unrecognized"⟩ = 1) ∧
    (⟨["a"], "Required"⟩ : Issue) ∈
      ([⟨["a"], "Required"⟩, ⟨["b"], "Unrecognized"⟩] : List Issue) ∧
    objectParse [("a", stringSchemaM)] true
      (.obj [("a", .str "x"), ("b", .num 1)]) =
      objectParse [("a", stringSchemaM)] true
        (.obj ([("a", .str "x"), ("b", .num 1)].filter
          (fun kv => hasKeyS [("a", stringSchemaM)] kv.1))) ∧
    (∀ kv ∈ [(("a" : String), JsValue.str "x")],
      hasKeyS [("a", stringSchemaM)] kv.1 = true) := by
  refine ⟨c6_object_strict_lax.1 [("a", stringSchemaM)]
      [("a", .str "x"), ("b", .num 1)] "b" (by simp) rfl (by simp),
    c6_object_strict_lax.2.1 [("a", stringSchemaM)] [("b", .num 1)] "a"
      stringSchemaM [⟨["a"], "Required"⟩, ⟨["b"], "Unrecognized"⟩]
      (by simp) rfl rfl rfl,
    c6_object_strict_lax.2.2.1 [("a", stringSchemaM)]
      [("a", .str "x"), ("b", .num 1)],
    c6_object_strict_lax.2.2.2.1 [("a", stringSchemaM)]
      [("a", .str "x"), ("b", .num 1)] [("a", .str "x")] rfl⟩

theorem Score.blt_trans {a b c : Score} (h1 : Score.blt a b = true)
    (h2 : Score.blt b c = true) : Score.blt a c = true := by
  cases a <;> cases b <;> cases c <;> simp_all [Score.blt] <;> omega

theorem Score.ble_of_not_blt {a b : Score} (h : Score.blt a b = false) :
    Score.ble b a = true := by
  cases a <;> cases b <;> simp_all [Score.blt, Score.ble] <;> omega

theorem Score.blt_of_blt_of_ble {a b c : Score} (h1 : Score.blt a b = true)
    (h2 : Score.ble b c = true) : Score.blt a c = true := by
  cases a <;> cases b <;> cases c <;> simp_all [Score.blt, Score.ble] <;> omega

theorem Score.ble_refl (a : Score) : Score.ble a a = true := by
  cases a <;> simp [Score.ble]

theorem Score.ble_of_blt {a b : Score} (h : Score.blt a b = true) :
    Score.ble a b = true := by
  cases a <;> cases b <;> simp_all [Score.blt, Score.ble] <;> omega

/-- The running-best selection of the route loop, on the candidate list. -/
def pickBest : Option RouteMatch → List RouteMatch → Option RouteMatch
  | b, [] => b
  | none, c :: rest => pickBest (some c) rest
  | some b, c :: rest =>
    pickBest (some (if Score.blt c.score b.score then c else b)) rest

theorem matchRestGo_snd (routes : List RestRoute) (url : String)
    (method : Method) :
    ∀ (inv : Bool) (b : Option RouteMatch),
      (matchRestGo routes url method inv b).2 =
        pickBest b (restCandidates routes url method) := by
  induction routes with
  | nil => intro inv b; cases b <;> rfl
  | cons r rest ih =>
    intro inv b
    simp only [matchRestGo, restCandidates, List.filterMap_cons]
    cases hm : specPathMatch r.pattern url with
    | none =>
      dsimp only
      simp only [restCandidates] at ih
      exact ih inv b
    | some m =>
      dsimp only
      by_cases hmeth : r.method = method
      · rw [if_neg (by simp [hmeth]), if_pos hmeth]
        simp only [restCandidates] at ih
        cases b with
        | none =>
          dsimp only
          exact ih inv (some ⟨r.tag, m.1, m.2⟩)
        | some prev =>
          dsimp only
          by_cases hlt : Score.blt m.2 prev.score = true
          · rw [if_pos hlt]
            have := ih inv (some ⟨r.tag, m.1, m.2⟩)
            rw [this]
            simp only [pickBest]
            rw [if_pos hlt]
          · rw [if_neg hlt]
            have := ih inv (some prev)
            rw [this]
            simp only [pickBest]
            rw [if_neg hlt]
      · rw [if_pos (by simp [hmeth]), if_neg hmeth]
        simp only [restCandidates] at ih
        exact ih true b

theorem pickBest_isSome (cands : List RouteMatch) :
    ∀ b : RouteMatch, (pickBest (some b) cands).isSome = true := by
  induction cands with
  | nil => intro b; rfl
  | cons c rest ih =>
    intro b
    simp only [pickBest]
    exact ih _

theorem pickBest_go (cands : List RouteMatch) :
    ∀ b res : RouteMatch, pickBest (some b) cands = some res →
      (res = b ∧ ∀ c ∈ cands, Score.ble b.score c.score = true) ∨
      (∃ pre post, cands = pre ++ res :: post ∧
        Score.blt res.score b.score = true ∧
        (∀ c ∈ pre, Score.blt res.score c.score = true) ∧
        (∀ c ∈ post, Score.ble res.score c.score = true)) := by
  induction cands with
  | nil =>
    intro b res h
    simp only [pickBest, Option.some.injEq] at h
    exact Or.inl ⟨h.symm, by simp⟩
  | cons c rest ih =>
    intro b res h
    simp only [pickBest] at h
    by_cases hlt : Score.blt c.score b.score = true
    · rw [if_pos hlt] at h
      rcases ih c res h with ⟨he, hall⟩ | ⟨pre, post, hsplit, hblt, hpre, hpost⟩
      · subst he
        refine Or.inr ⟨[], rest, by simp, hlt, by simp, hall⟩
      · refine Or.inr ⟨c :: pre, post, by simp [hsplit],
          Score.blt_trans hblt hlt, ?_, hpost⟩
        intro d hd
        rcases List.mem_cons.1 hd with hd | hd
        · exact hd ▸ hblt
        · exact hpre d hd
    · rw [if_neg hlt] at h
      rcases ih b res h with ⟨he, hall⟩ | ⟨pre, post, hsplit, hblt, hpre, hpost⟩
      · subst he
        refine Or.inl ⟨rfl, ?_⟩
        intro d hd
        rcases List.mem_cons.1 hd with hd | hd
        · exact hd ▸ Score.ble_of_not_blt (by simpa using hlt)
        · exact hall d hd
      · refine Or.inr ⟨c :: pre, post, by simp [hsplit], hblt, ?_, hpost⟩
        intro d hd
        rcases List.mem_cons.1 hd with hd | hd
        · exact hd ▸ Score.blt_of_blt_of_ble hblt
            (Score.ble_of_not_blt (by simpa using hlt))
        · exact hpre d hd

theorem pickBest_none_char {cands : List RouteMatch} {res : RouteMatch}
    (h : pickBest none cands = some res) :
    ∃ pre post, cands = pre ++ res :: post ∧
      (∀ c ∈ pre, Score.blt res.score c.score = true) ∧
      (∀ c ∈ cands, Score.ble res.score c.score = true) := by
  cases cands with
  | nil => simp [pickBest] at h
  | cons c rest =>
    simp only [pickBest] at h
    rcases pickBest_go rest c res h with ⟨he, hall⟩ | ⟨pre, post, hsplit, hblt, hpre, hpost⟩
    · subst he
      refine ⟨[], rest, by simp, by simp, ?_⟩
      intro d hd
      rcases List.mem_cons.1 hd with hd | hd
      · exact hd ▸ Score.ble_refl _
      · exact hall d hd
    · refine ⟨c :: pre, post, by simp [hsplit], ?_, ?_⟩
      · intro d hd
        rcases List.mem_cons.1 hd with hd | hd
        · exact hd ▸ hblt
        · exact hpre d hd
      · intro d hd
        rcases List.mem_cons.1 hd with hd | hd
        · exact hd ▸ Score.ble_of_blt hblt
        · rw [hsplit] at hd
          rcases List.mem_append.1 hd with hd | hd
          · exact Score.ble_of_blt (hpre d hd)
          · rcases List.mem_cons.1 hd with hd | hd
            · exact hd ▸ Score.ble_refl _
            · exact hpost d hd

theorem specMatchWalk_score (expected : List String) :
    ∀ (actual : List String) (params0 params : List (String × String))
      (score : Score),
      specMatchWalk expected actual params0 = some (params, score) →
      score = .inf ∨ score = .fin params.length := by
  induction expected with
  | nil =>
    intro actual params0 params score h
    cases actual with
    | nil =>
      simp only [specMatchWalk, Option.some.injEq, Prod.mk.injEq] at h
      exact Or.inr (by rw [h.2.symm, h.1])
    | cons a arest => simp [specMatchWalk] at h
  | cons e erest ih =>
    intro actual params0 params score h
    cases actual with
    | nil =>
      simp only [specMatchWalk] at h
      split at h
      · simp only [Option.some.injEq, Prod.mk.injEq] at h
        split at h
        · exact Or.inl h.2.symm
        · exact Or.inr (by rw [h.2.symm, h.1])
      · exact absurd h (by simp)
    | cons a arest =>
      simp only [specMatchWalk] at h
      split at h
      · simp only [Option.some.injEq, Prod.mk.injEq] at h
        exact Or.inl h.2.symm
      · split at h
        · exact ih arest _ params score h
        · split at h
          · exact absurd h (by simp)
          · exact ih arest _ params score h

theorem specMatchWalk_no_wildcard (expected : List String) :
    ∀ (actual : List String) (params0 params : List (String × String))
      (score : Score),
      expected.contains "*" = false →
      specMatchWalk expected actual params0 = some (params, score) →
      score = .fin params.length := by
  induction expected with
  | nil =>
    intro actual params0 params score _ h
    cases actual with
    | nil =>
      simp only [specMatchWalk, Option.some.injEq, Prod.mk.injEq] at h
      rw [h.2.symm, h.1]
    | cons a arest => simp [specMatchWalk] at h
  | cons e erest ih =>
    intro actual params0 params score hw h
    have hne : e ≠ "*" := by
      intro he
      rw [List.contains_cons] at hw
      simp [he] at hw
    have hrest : erest.contains "*" = false := by
      rw [List.contains_cons] at hw
      simpa using (Bool.or_eq_false_iff.1 hw).2
    cases actual with
    | nil =>
      simp only [specMatchWalk] at h
      split at h
      · simp only [Option.some.injEq, Prod.mk.injEq] at h
        split at h
        · rename_i hcont
          rw [List.contains_cons] at hcont
          rcases Bool.or_eq_true_iff.1 hcont with hc | hc
          · exact absurd (by simpa using hc) (Ne.symm hne)
          · rw [hrest] at hc
            exact absurd hc (by simp)
        · rw [h.2.symm, h.1]
      · exact absurd h (by simp)
    | cons a arest =>
      simp only [specMatchWalk] at h
      rw [if_neg (by simpa using hne)] at h
      split at h
      · exact ih arest _ params score hrest h
      · split at h
        · exact absurd h (by simp)
        · exact ih arest _ params score hrest h

/-- C2: spec-modelled — the scored `Path.match` used by the current router is
absent from the sources (only its callers and tests are present) and is
modelled from §4.5.  Among the entries whose path matches and whose method
equals the request method, `matchRestRoute` returns a winner with the lowest
specificity score, and every earlier candidate has a strictly greater score
(ties keep the first-registered entry); with no candidate there is no winner;
a match of a wildcard-free pattern scores exactly the number of captured
parameters, the wildcard score is the maximal `inf` which every finite score
beats; with routes `/users/:id` and `/users/active` registered, GET
`/users/active` is dispatched to the literal route with score 0; and a
parameterized route beats an earlier wildcard route. -/
theorem c2_router_picks_lowest_score :
    (∀ (routes : List RestRoute) (url : String) (method : Method)
       (res : RouteMatch),
      (matchRestRoute routes url method).2 = some res →
      ∃ pre post, restCandidates routes url method = pre ++ res :: post ∧
        (∀ c ∈ pre, Score.blt res.score c.score = true) ∧
        (∀ c ∈ restCandidates routes url method,
          Score.ble res.score c.score = true)) ∧
    (∀ (routes : List RestRoute) (url : String) (method : Method),
      (matchRestRoute routes url method).2 = none →
      restCandidates routes url method = []) ∧
    (∀ (expected : List String) (path : String)
       (params : List (String × String)) (score : Score),
      expected.contains "*" = false →
      specPathMatch expected path = some (params, score) →
      score = .fin params.length) ∧
    (∀ n : Nat, Score.blt (.fin n) .inf = true) ∧
    specPathMatch ["abc", "*"] "/abc/def/123" = some ([], .inf) ∧
    matchRestRoute [⟨["users", ":id"], .GET, 1⟩, ⟨["users", "active"], .GET, 2⟩]
      "/users/active" .GET = (false, some ⟨2, [], .fin 0⟩) ∧
    matchRestRoute [⟨["a", "*"], .GET, 1⟩, ⟨["a", ":x", ":y"], .GET, 2⟩]
      "/a/b/c" .GET = (false, some ⟨2, [("x", "b"), ("y", "c")], .fin 2⟩) := by
  refine ⟨?_, ?_, ?_, fun n => rfl, rfl, rfl, rfl⟩
  · intro routes url method res h
    rw [matchRestRoute, matchRestGo_snd routes url method false none] at h
    exact pickBest_none_char h
  · intro routes url method h
    rw [matchRestRoute, matchRestGo_snd routes url method false none] at h
    cases hc : restCandidates routes url method with
    | nil => rfl
    | cons c rest =>
      rw [hc] at h
      simp only [pickBest] at h
      have := pickBest_isSome rest c
      rw [h] at this
      exact absurd this (by simp)
  · intro expected path params score hw h
    rw [specPathMatch] at h
    split at h
    · exact absurd h (by simp)
    · exact specMatchWalk_no_wildcard expected _ [] params score hw h

/-- C2 witness: the winner characterization and the no-candidate clause
applied to the concrete two-route tables, and the no-wildcard score clause at
the parameterized match. -/
theorem c2_router_witness :
    (∃ pre post,
      restCandidates
        [⟨["users", ":id"], .GET, 1⟩, ⟨["users", "active"], .GET, 2⟩]
        "/users/active" .GET =
        pre ++ (⟨2, [], .fin 0⟩ : RouteMatch) :: post ∧
      (∀ c ∈ pre, Score.blt (Score.fin 0) c.score = true) ∧
      (∀ c ∈ restCandidates
          [⟨["users", ":id"], .GET, 1⟩, ⟨["users", "active"], .GET, 2⟩]
          "/users/active" .GET,
        Score.ble (Score.fin 0) c.score = true)) ∧
    restCandidates [⟨["x"], .GET, 1⟩] "/y" .GET = [] ∧
    Score.fin 2 = Score.fin ([("x", "b"), ("y", "c")] :
      List (String × String)).length := by
  refine ⟨c2_router_picks_lowest_score.1
      [⟨["users", ":id"], .GET, 1⟩, ⟨["users", "active"], .GET, 2⟩]
      "/users/active" .GET ⟨2, [], .fin 0⟩ rfl,
    c2_router_picks_lowest_score.2.1 [⟨["x"], .GET, 1⟩] "/y" .GET rfl,
    c2_router_picks_lowest_score.2.2.1 ["a", ":x", ":y"] "/a/b/c"
      [("x", "b"), ("y", "c")] (.fin 2) rfl rfl⟩

theorem Counter.step_pending (c : Counter) (op : COp) :
    ((c.step op).1).pending = c.pending := by
  cases op <;> rfl

theorem Counter.runOps_cons (c : Counter) (op : COp) (ops : List COp) :
    c.runOps (op :: ops) = ((c.step op).1).runOps ops := rfl

theorem Counter.runOps_pending (c : Counter) (ops : List COp) :
    (c.runOps ops).pending = c.pending := by
  induction ops generalizing c with
  | nil => rfl
  | cons op rest ih => rw [Counter.runOps_cons, ih, Counter.step_pending]

theorem Counter.runOps_append (c : Counter) (l1 l2 : List COp) :
    c.runOps (l1 ++ l2) = (c.runOps l1).runOps l2 := by
  simp [Counter.runOps, List.foldl_append]

theorem Counter.runOps_take_succ (c : Counter) (ops : List COp) (i : Nat)
    (op : COp) (hi : i < ops.length) (hop : ops[i] = op) :
    c.runOps (ops.take (i + 1)) =
      ((c.runOps (ops.take i)).step op).1 := by
  rw [List.take_succ, Counter.runOps_append, List.getElem?_eq_getElem hi, hop]
  rfl

theorem Counter.count_stays_pos (c : Counter) (ops : List COp)
    (hpos : 0 < c.count) :
    ∀ i, (∀ j, j ≤ i → (c.runOps (ops.take j)).count ≠ 0) →
      0 < (c.runOps (ops.take i)).count := by
  intro i
  induction i with
  | zero =>
    intro _
    simpa [Counter.runOps] using hpos
  | succ k ih =>
    intro hne
    have hk := ih (fun j hj => hne j (Nat.le_succ_of_le hj))
    by_cases hlen : k < ops.length
    · have hne2 := hne (k + 1) (le_refl _)
      cases hop : ops[k] with
      | inc =>
        rw [Counter.runOps_take_succ c ops k .inc hlen hop] at hne2 ⊢
        simp only [Counter.step, Counter.increment] at hne2 ⊢
        omega
      | dec =>
        rw [Counter.runOps_take_succ c ops k .dec hlen hop] at hne2 ⊢
        simp only [Counter.step, Counter.decrement] at hne2 ⊢
        omega
    · have heq : ops.take (k + 1) = ops.take k := by
        rw [List.take_of_length_le (by omega), List.take_of_length_le (by omega)]
      rw [heq]
      exact hk

/-- C8: for the shutdown barrier Counter, a wait made at count zero resolves
immediately; a wait made at positive count suspends (the waiter is stored,
nothing resolves); and with a waiter pending, for any later
increment/decrement sequence, at the first step where the count reaches zero
that step is a decrement and it fires the stored waiter. -/
theorem c8_counter_wait_barrier :
    (∀ c : Counter, c.count = 0 → c.wait = (c, true)) ∧
    (∀ c : Counter, 0 < c.count →
      c.wait = ({ c with pending := true }, false)) ∧
    (∀ (c : Counter) (ops : List COp) (i : Nat) (hi : i < ops.length),
      c.pending = true → 0 < c.count →
      (∀ j, j ≤ i → (c.runOps (ops.take j)).count ≠ 0) →
      (c.runOps (ops.take (i + 1))).count = 0 →
      ops[i] = COp.dec ∧
      ((c.runOps (ops.take i)).step ops[i]).2 = true) := by
  refine ⟨?_, ?_, ?_⟩
  · intro c h
    simp [Counter.wait, h]
  · intro c h
    rw [Counter.wait, if_neg (by omega)]
  · intro c ops i hi hpend hpos hne h0
    have hik := Counter.count_stays_pos c ops hpos i hne
    have hpend2 : (c.runOps (ops.take i)).pending = true := by
      rw [Counter.runOps_pending]
      exact hpend
    cases hop : ops[i] with
    | inc =>
      rw [Counter.runOps_take_succ c ops i .inc hi hop] at h0
      simp only [Counter.step, Counter.increment] at h0
      exact absurd hik (by omega)
    | dec =>
      rw [Counter.runOps_take_succ c ops i .dec hi hop] at h0
      refine ⟨rfl, ?_⟩
      simp only [Counter.step, Counter.decrement] at h0 ⊢
      simp only [beq_iff_eq, Bool.and_eq_true, decide_eq_true_eq]
      exact ⟨by omega, hpend2⟩

/-- C8 witness: the immediate-resolve clause at count 0, the suspend clause at
count 1, and the sequence clause on a pending barrier at count 1 running
increment, decrement, decrement — the second decrement reaches zero and
fires. -/
theorem c8_counter_witness :
    Counter.wait ⟨0, false⟩ = (⟨0, false⟩, true) ∧
    Counter.wait ⟨1, false⟩ = (⟨1, true⟩, false) ∧
    ([COp.inc, COp.dec, COp.dec])[2] = COp.dec ∧
    ((Counter.runOps ⟨1, true⟩ ([COp.inc, COp.dec, COp.dec].take 2)).step
      ([COp.inc, COp.dec, COp.dec])[2]).2 = true := by
  have h := c8_counter_wait_barrier.2.2 ⟨1, true⟩ [COp.inc, COp.dec, COp.dec] 2
    (by decide) rfl (by decide) (by decide) (by decide)
  exact ⟨c8_counter_wait_barrier.1 ⟨0, false⟩ rfl,
    c8_counter_wait_barrier.2.1 ⟨1, false⟩ (by decide), h.1, h.2⟩

end Yedra
